import Mathlib

/-!
Shallow embedding of the crawl-and-aggregate core of the
english-words-frequency repository (the EnglishWordsParser class) and of
the line-oriented reader in the PartOfSpeechAnalyzer class, together with
proofs settling the specification claims.

Strings are modelled as `List Char`.  Library calls of the Python standard
library that the class logic depends on (`urllib.parse.urlparse`, `str.split`,
`str.isalpha`, `str.isascii`, `str.lower`) are modelled concretely; the
external collaborators (`requests.get`, BeautifulSoup anchor extraction,
`urljoin` relative-reference resolution) are oracle parameters, exactly as the
spec treats them (injected fetch / link-extraction capabilities).
-/

namespace EWFP

/-- model strings as lists of characters. -/
abbrev Str := List Char

/-- coerce a Lean string literal to the `List Char` model. -/
def strL (s : String) : Str := s.data

/-- split a character list at the first occurrence of `sep`; `none` when
`sep` does not occur.  The separator itself is kept in neither part. -/
def splitAtFirst (sep : Char) : Str → Option (Str × Str)
  | [] => none
  | c :: cs =>
    if c = sep then some ([], cs)
    else (splitAtFirst sep cs).map (fun p => (c :: p.1, p.2))

/-- take characters until one of the stop characters is met; the stop
character stays in the second component. -/
def takeUntilAny (stops : List Char) : Str → Str × Str
  | [] => ([], [])
  | c :: cs =>
    if c ∈ stops then ([], c :: cs)
    else
      let p := takeUntilAny stops cs
      (c :: p.1, p.2)

/-- characters allowed in a URL scheme after the leading letter
(model of `urllib.parse.scheme_chars`). -/
def isSchemeChar (c : Char) : Bool :=
  c.isAlpha || c.isDigit || c = '+' || c = '-' || c = '.'

/-- the three URL components the class logic reads. -/
structure UrlParts where
  scheme : Str
  netloc : Str
  path : Str
deriving DecidableEq

/-- model of `urllib.parse.urlparse` restricted to the components the code
uses: an optional `scheme:` head (leading letter, scheme characters only,
lower-cased), a `//netloc` part ended by `/`, `?` or `#`, and the path with
query and fragment stripped. -/
def urlparse (url : Str) : UrlParts :=
  let schemeRest : Str × Str :=
    match splitAtFirst ':' url with
    | some (bef, aft) =>
      match bef with
      | [] => ([], url)
      | c :: cs =>
        if c.isAlpha && (c :: cs).all isSchemeChar then
          ((c :: cs).map Char.toLower, aft)
        else ([], url)
    | none => ([], url)
  let netlocRest : Str × Str :=
    match schemeRest.2 with
    | '/' :: '/' :: r => takeUntilAny ['/', '?', '#'] r
    | r => ([], r)
  let noFrag : Str := ((splitAtFirst '#' netlocRest.2).map Prod.fst).getD netlocRest.2
  let path : Str := ((splitAtFirst '?' noFrag).map Prod.fst).getD noFrag
  ⟨schemeRest.1, netlocRest.1, path⟩

/-- EnglishWordsParser.extract_base_url: scheme and netloc of the given URL,
rendered as `scheme://netloc`. -/
def extract_base_url (url : Str) : Str :=
  let p := urlparse url
  p.scheme ++ [':', '/', '/'] ++ p.netloc

/-- the mutable attributes of an EnglishWordsParser instance. -/
structure CrawlState where
  base_url : Str
  to_parse_links : List Str
  parsed_links : List Str
  word_frequency : List (Str × Nat)
  current_link : Str
  output_file : Str
deriving DecidableEq

/-- EnglishWordsParser.__init__: `initial_links[0]` raises IndexError on an
empty seed list, modelled as `none`; otherwise the base URL is derived from
the first seed and the frontier is the seed list itself, unchecked. -/
def initState (initial_links : List Str) (output_file : Str) :
    Option CrawlState :=
  match initial_links with
  | [] => none
  | l0 :: _ =>
    some ⟨extract_base_url l0, initial_links, [], [], [], output_file⟩

/-- EnglishWordsParser.parse_url: admit `url` into `to_parse_links` iff its
path is empty or has no dot, it is in neither `to_parse_links` nor
`parsed_links`, and its netloc equals the netloc of the base URL. -/
def parse_url (s : CrawlState) (url : Str) : CrawlState :=
  let p := urlparse url
  if (p.path = [] ∨ '.' ∉ p.path) ∧ url ∉ s.to_parse_links ∧
      url ∉ s.parsed_links ∧ p.netloc = (urlparse s.base_url).netloc then
    { s with to_parse_links := s.to_parse_links ++ [url] }
  else s

/-- whitespace for `str.split()` (the ASCII whitespace characters Python
splits on). -/
def isPySpace (c : Char) : Bool :=
  c = ' ' || c = '\t' || c = '\n' || c = '\r' || c = '\x0b' || c = '\x0c'

/-- worker for `str.split()`: `cur` holds the characters of the token under
construction, in reverse. -/
def pySplitAux : Str → Str → List Str
  | [], cur => if cur = [] then [] else [cur.reverse]
  | c :: cs, cur =>
    if isPySpace c then
      if cur = [] then pySplitAux cs [] else cur.reverse :: pySplitAux cs []
    else pySplitAux cs (c :: cur)

/-- model of `str.split()` with no argument: split on runs of whitespace,
producing no empty tokens. -/
def pySplit (text : Str) : List Str := pySplitAux text []

/-- ASCII upper-case letter (code points 65–90). -/
def isAsciiUpper (c : Char) : Bool := 65 ≤ c.toNat && c.toNat ≤ 90

/-- ASCII lower-case letter (code points 97–122). -/
def isAsciiLower (c : Char) : Bool := 97 ≤ c.toNat && c.toNat ≤ 122

/-- model of `w.isalpha() and w.isascii()` taken jointly: the conjunction
holds iff the token is non-empty and every character is an ASCII letter
(on the ASCII range, which `isascii` enforces, Unicode alphabetic means
exactly ASCII letter). -/
def pyIsAlphaAscii (w : Str) : Bool :=
  decide (w ≠ []) && w.all (fun c => isAsciiUpper c || isAsciiLower c) &&
    w.all (fun c => c.toNat < 128)

/-- model of `str.lower()` on one character: ASCII case folding (the
accepted tokens are ASCII-only, where Python lower-cases exactly the
upper-case letters by adding 32). -/
def pyLowerChar (c : Char) : Char :=
  if isAsciiUpper c then Char.ofNat (c.toNat + 32) else c

/-- model of `str.lower()`. -/
def pyLower (w : Str) : Str := w.map pyLowerChar

/-- `defaultdict(int)` increment `freq[w] += 1` on an insertion-ordered
mapping: bump the first entry with key `w`, or append `(w, 1)` when the key
is absent. -/
def bump (w : Str) : List (Str × Nat) → List (Str × Nat)
  | [] => [(w, 1)]
  | (k, n) :: rest =>
    if k = w then (k, n + 1) :: rest else (k, n) :: bump w rest

/-- EnglishWordsParser.collect_words_from_text, on the `word_frequency`
attribute: split the text, and for each token passing
`isalpha() and isascii()` increment the count of its lower-cased form. -/
def collect_words_from_text (text : Str) (freq : List (Str × Nat)) :
    List (Str × Nat) :=
  (pySplit text).foldl
    (fun f w => if pyIsAlphaAscii w then bump (pyLower w) f else f) freq

/-- the external collaborators, as the spec injects them: `fetch` models
`requests.get` + `raise_for_status` (`none` = raised RequestException,
`some body` = `response.text`); `hrefs` models BeautifulSoup extraction of
the literal href values of anchors; `urljoin` models
`urllib.parse.urljoin` relative-reference resolution. -/
structure Oracles where
  fetch : Str → Option Str
  hrefs : Str → List Str
  urljoin : Str → Str → Str

/-- EnglishWordsParser.fetch_page_content: the page text on success, `""`
when a RequestException was raised. -/
def fetch_page_content (o : Oracles) (url : Str) : Str :=
  (o.fetch url).getD []

/-- EnglishWordsParser.find_links_and_add_to_parse: resolve each extracted
href against `current_link` and feed it to `parse_url`. -/
def find_links_and_add_to_parse (o : Oracles) (s : CrawlState) (text : Str) :
    CrawlState :=
  (o.hrefs text).foldl (fun st href => parse_url st (o.urljoin st.current_link href)) s

/-- one iteration of the EnglishWordsParser.parse_all_links loop: `none`
when `to_parse_links` is empty (loop exit); otherwise pop the head into
`current_link`, fetch, and when the content is non-empty collect words,
discover links, and append the URL to `parsed_links`. -/
def crawlStep (o : Oracles) (s : CrawlState) : Option CrawlState :=
  match s.to_parse_links with
  | [] => none
  | current :: rest =>
    let s1 : CrawlState :=
      { s with to_parse_links := rest, current_link := current }
    let content := fetch_page_content o current
    if content ≠ [] then
      let s2 : CrawlState :=
        { s1 with word_frequency := collect_words_from_text content s1.word_frequency }
      let s3 := find_links_and_add_to_parse o s2 content
      some { s3 with parsed_links := s3.parsed_links ++ [current] }
    else some s1

/-- EnglishWordsParser.parse_all_links, fuelled: iterate `crawlStep` up to
`fuel` times (the Python loop runs until the frontier empties; fuel makes
the iteration total in the model). -/
def parse_all_links (o : Oracles) : Nat → CrawlState → CrawlState
  | 0, s => s
  | fuel + 1, s =>
    match crawlStep o s with
    | none => s
    | some s' => parse_all_links o fuel s'

/-- the sort key relation of `sorted(..., key=lambda item: item[1],
reverse=True)`: entry `a` may precede entry `b` iff `a`'s count is at least
`b`'s. -/
def freqGE (a b : Str × Nat) : Prop := b.2 ≤ a.2

instance : DecidableRel freqGE := fun a b => Nat.decLe b.2 a.2

instance : IsTotal (Str × Nat) freqGE := ⟨fun a b => Nat.le_total b.2 a.2⟩

instance : IsTrans (Str × Nat) freqGE :=
  ⟨fun _ _ _ h1 h2 => Nat.le_trans h2 h1⟩

/-- EnglishWordsParser.sort_word_frequency: Python `sorted` with
`key=item[1], reverse=True` is the stable descending-count sort, and the
stable sort under a fixed total preorder is a unique function; insertion
sort with `freqGE` computes exactly it. -/
def sort_word_frequency (freq : List (Str × Nat)) : List (Str × Nat) :=
  freq.insertionSort freqGE

/-- the character of a decimal digit value. -/
def natDigitChar (d : Nat) : Char := Char.ofNat (48 + d)

/-- decimal digit value of a character. -/
def charDigitVal (c : Char) : Nat := c.toNat - 48

/-- decimal rendering of a natural number, as the f-string
`f"\x7bfrequency\x7d"` prints it: most-significant digit first, `0` for
zero. -/
def natToChars (n : Nat) : Str :=
  if n = 0 then ['0'] else ((Nat.digits 10 n).map natDigitChar).reverse

/-- ASCII decimal digit test (model of `int()` acceptance on the
`word:count` lines, whose right-hand sides are bare digit runs). -/
def isDigitChar (c : Char) : Bool := 48 ≤ c.toNat && c.toNat ≤ 57

/-- read a non-empty all-digit character run as a decimal non-negative
integer; `none` otherwise (model of `int(frequency)` raising ValueError). -/
def readNat (cs : Str) : Option Nat :=
  if cs ≠ [] ∧ cs.all isDigitChar then
    some (Nat.ofDigits 10 ((cs.map charDigitVal).reverse))
  else none

/-- one output record of EnglishWordsParser.save_to_file:
`f"\x7bword\x7d:\x7bfrequency\x7d\n"`. -/
def saveLine (p : Str × Nat) : Str :=
  p.1 ++ ':' :: natToChars p.2 ++ ['\n']

/-- EnglishWordsParser.save_to_file: sort the table, then write one
`word:count` record per line, in the established order; the result is the
file content. -/
def save_to_file (freq : List (Str × Nat)) : Str :=
  ((sort_word_frequency freq).map saveLine).flatten

/-- split on every occurrence of `sep`; always at least one segment. -/
def splitSep (sep : Char) : Str → List Str
  | [] => [[]]
  | c :: cs =>
    let r := splitSep sep cs
    if c = sep then [] :: r
    else
      match r with
      | [] => [[c]]
      | h :: t => (c :: h) :: t

/-- file content as the line sequence Python file iteration + `strip()`
yields on it: segments between newlines, with the empty segment after a
trailing final newline not yielded. -/
def toLines (cs : Str) : List Str :=
  let segs := splitSep '\n' cs
  if segs.getLast? = some [] then segs.dropLast else segs

/-- one line of PartOfSpeechAnalyzer.process_file:
`word, frequency = line.strip().split(':')` followed by `int(frequency)` —
the line must hold exactly one `:` (the unpacking raises ValueError
otherwise), the left part is the word, and the right part is read as a
decimal non-negative integer. -/
def readLine (line : Str) : Option (Str × Nat) :=
  match splitAtFirst ':' line with
  | none => none
  | some (w, rest) =>
    if ':' ∈ rest then none
    else (readNat rest).map (fun n => (w, n))

/-- read every line of a `word:count` file back into an association list;
`none` when any line is malformed. -/
def readAllLines : List Str → Option (List (Str × Nat))
  | [] => some []
  | l :: ls =>
    match readLine l with
    | none => none
    | some p => (readAllLines ls).map (fun r => p :: r)

/-- re-reading a written file: split the content into lines and read each
`word:count` record. -/
def readBack (cs : Str) : Option (List (Str × Nat)) :=
  readAllLines (toLines cs)

/-- admission condition written from the spec's words for claim C1
(refinement comparison only): path empty or dot-free, not in Frontier, not
in Visited Set, and the authority — scheme AND host together — equal to
the base's authority. -/
def specAdmitC1 (s : CrawlState) (url : Str) : Prop :=
  let p := urlparse url
  let b := urlparse s.base_url
  (p.path = [] ∨ '.' ∉ p.path) ∧ url ∉ s.to_parse_links ∧
    url ∉ s.parsed_links ∧ p.scheme = b.scheme ∧ p.netloc = b.netloc

instance (s : CrawlState) (url : Str) : Decidable (specAdmitC1 s url) := by
  unfold specAdmitC1
  infer_instance

/-- the candidate fold of find_links_and_add_to_parse. -/
def linkFold (o : Oracles) (hs : List Str) (st : CrawlState) : CrawlState :=
  hs.foldl (fun st href => parse_url st (o.urljoin st.current_link href)) st

/-! ### Demonstration worlds (concrete oracle instantiations) -/

/-- a world whose every fetch succeeds with the fixed body `hello world`
and whose pages carry no anchors. -/
def demoWorld : Oracles :=
  ⟨fun _ => some (strL "hello world"), fun _ => [], fun _ h => h⟩

/-- a world whose every fetch raises (network down). -/
def downWorld : Oracles :=
  ⟨fun _ => none, fun _ => [], fun _ h => h⟩

/-- a world whose every fetch succeeds with status 200 but an empty body. -/
def emptyBodyWorld : Oracles :=
  ⟨fun _ => some [], fun _ => [], fun _ h => h⟩

/-- a world with the single page `http://a.com` whose body carries one
anchor pointing back at the page itself. -/
def selfLinkWorld : Oracles :=
  ⟨fun v => if v = strL "http://a.com" then some (strL "selfref") else none,
    fun t => if t = strL "selfref" then [strL "http://a.com"] else [],
    fun _ h => h⟩

/-- dictionary lookup with default 0, reading the first entry whose key
matches (keys are unique in every table `bump` builds). -/
def lookupCount (freq : List (Str × Nat)) (w : Str) : Nat :=
  match freq with
  | [] => 0
  | (k, n) :: rest => if k = w then n else lookupCount rest w

/-- a well-formed Frequency Table key: a non-empty token all of whose
characters are lower-case ASCII letters (hence lower-cased,
alphabetic-only and ASCII-only). -/
def goodKey (w : Str) : Prop := w ≠ [] ∧ ∀ c ∈ w, isAsciiLower c = true

/-- the revisit bound the crawl maintains (for duplicate-free seeds): every
URL has at most one pending copy in the Frontier, at most two entries in
the Visited Set, and once it has been visited the total of its visited and
pending copies is at most two. -/
def crawlInvariant (s : CrawlState) : Prop :=
  ∀ u : Str, s.to_parse_links.count u ≤ 1 ∧ s.parsed_links.count u ≤ 2 ∧
    (1 ≤ s.parsed_links.count u →
      s.parsed_links.count u + s.to_parse_links.count u ≤ 2)

/-! ### Structure lemmas about the URL classifier -/

theorem parse_url_eq (s : CrawlState) (url : Str) :
    parse_url s url =
      if ((urlparse url).path = [] ∨ '.' ∉ (urlparse url).path) ∧
          url ∉ s.to_parse_links ∧ url ∉ s.parsed_links ∧
          (urlparse url).netloc = (urlparse s.base_url).netloc then
        { s with to_parse_links := s.to_parse_links ++ [url] }
      else s := rfl

theorem parse_url_shape (s : CrawlState) (u : Str) :
    ∃ L, parse_url s u = { s with to_parse_links := s.to_parse_links ++ L } := by
  rw [parse_url_eq]
  split
  · exact ⟨[u], rfl⟩
  · refine ⟨[], ?_⟩
    cases s
    simp

theorem parse_url_cases (s : CrawlState) (u : Str) :
    parse_url s u = s ∨
      (parse_url s u = { s with to_parse_links := s.to_parse_links ++ [u] } ∧
        u ∉ s.to_parse_links ∧ u ∉ s.parsed_links ∧
        (urlparse u).netloc = (urlparse s.base_url).netloc) := by
  rw [parse_url_eq]
  split
  · next h => exact Or.inr ⟨rfl, h.2.1, h.2.2.1, h.2.2.2⟩
  · exact Or.inl rfl

theorem parse_url_parsed_links (s : CrawlState) (u : Str) :
    (parse_url s u).parsed_links = s.parsed_links := by
  rw [parse_url_eq]; split <;> rfl

theorem find_links_eq_linkFold (o : Oracles) (s : CrawlState) (text : Str) :
    find_links_and_add_to_parse o s text = linkFold o (o.hrefs text) s := rfl

theorem linkFold_shape (o : Oracles) (hs : List Str) :
    ∀ st : CrawlState, ∃ L,
      linkFold o hs st = { st with to_parse_links := st.to_parse_links ++ L } := by
  induction hs with
  | nil =>
    intro st
    refine ⟨[], ?_⟩
    cases st
    simp [linkFold]
  | cons h t ih =>
    intro st
    obtain ⟨L1, h1⟩ := parse_url_shape st (o.urljoin st.current_link h)
    obtain ⟨L2, h2⟩ := ih (parse_url st (o.urljoin st.current_link h))
    refine ⟨L1 ++ L2, ?_⟩
    have : linkFold o (h :: t) st =
        linkFold o t (parse_url st (o.urljoin st.current_link h)) := rfl
    rw [this, h2, h1]
    simp [List.append_assoc]

/-! ### Claim C1 -/

/-- C1, counterexample: with the base derived from the seed
`https://go.dev`, the candidate `http://go.dev` differs from the base in
scheme, so the claimed condition (d) (authority = scheme AND host) fails
and the claim says the candidate is discarded; the code admits it, because
`parse_url` compares netloc only. -/
theorem C1_scheme_ignored_counterexample :
    parse_url ⟨strL "https://go.dev", [strL "https://go.dev"], [], [], [], strL "o"⟩
        (strL "http://go.dev") =
      ⟨strL "https://go.dev", [strL "https://go.dev", strL "http://go.dev"], [],
        [], [], strL "o"⟩ ∧
    ¬ specAdmitC1
        ⟨strL "https://go.dev", [strL "https://go.dev"], [], [], [], strL "o"⟩
        (strL "http://go.dev") := by
  constructor
  · decide
  · decide

/-- C1, amended: the classifier admits a candidate URL iff (a) its path is
empty or contains no dot, (b) it is not already in the Frontier, (c) it is
not already in the Visited Set, and (d) its HOST (netloc) — not its full
scheme+host authority — equals the base's host; a discarded candidate
leaves the state entirely unchanged and no error arises. -/
theorem C1_classifier_admission (s : CrawlState) (url : Str) :
    (parse_url s url = { s with to_parse_links := s.to_parse_links ++ [url] } ∨
      parse_url s url = s) ∧
    (parse_url s url = { s with to_parse_links := s.to_parse_links ++ [url] } ↔
      (((urlparse url).path = [] ∨ '.' ∉ (urlparse url).path) ∧
        url ∉ s.to_parse_links ∧ url ∉ s.parsed_links ∧
        (urlparse url).netloc = (urlparse s.base_url).netloc)) := by
  rw [parse_url_eq]
  split
  · next h => exact ⟨Or.inl rfl, ⟨fun _ => h, fun _ => rfl⟩⟩
  · next h =>
    refine ⟨Or.inr rfl, ⟨fun he => ?_, fun hc => absurd hc h⟩⟩
    exfalso
    have := congrArg CrawlState.to_parse_links he
    simp at this

/-- C1, witness: the theorem applied at a concrete admitted candidate. -/
theorem C1_classifier_admission_witness :
    parse_url ⟨strL "http://a.com", [], [], [], [], strL "out"⟩ (strL "http://a.com") =
      ⟨strL "http://a.com", [strL "http://a.com"], [], [], [], strL "out"⟩ :=
  (C1_classifier_admission
    ⟨strL "http://a.com", [], [], [], [], strL "out"⟩ (strL "http://a.com")).2.mpr
    (by decide)

/-! ### Claim C2 -/

/-- C2, counterexample: the constructor enqueues `initial_links` unchecked,
so the initial crawl state seeded with a duplicated seed has that URL twice
in the Frontier, violating the claimed once-only invariant at the initial
state (and a second seed from a foreign host violates the same-domain
part). -/
theorem C2_initial_state_counterexample :
    initState [strL "http://a.com", strL "http://a.com"] (strL "o") =
      some ⟨strL "http://a.com", [strL "http://a.com", strL "http://a.com"],
        [], [], [], strL "o"⟩ ∧
    (⟨strL "http://a.com", [strL "http://a.com", strL "http://a.com"],
        [], [], [], strL "o"⟩ : CrawlState).to_parse_links.count (strL "http://a.com") = 2 ∧
    initState [strL "http://a.com", strL "http://b.org"] (strL "o") =
      some ⟨strL "http://a.com", [strL "http://a.com", strL "http://b.org"],
        [], [], [], strL "o"⟩ ∧
    strL "http://b.org" ∈
      (⟨strL "http://a.com", [strL "http://a.com", strL "http://b.org"],
        [], [], [], strL "o"⟩ : CrawlState).to_parse_links ∧
    (urlparse (strL "http://b.org")).netloc ≠
      (urlparse (strL "http://a.com")).netloc := by
  refine ⟨by decide, by decide, by decide, by decide, by decide⟩

/-- C2, amended: the once-only / not-visited / same-domain guarantees hold
at every classifier admission (rather than for every URL of every reachable
Frontier): whenever `parse_url` changes the state, the admitted URL has the
base's host, is not in the Visited Set, was not in the Frontier, and occurs
exactly once in the new Frontier. -/
theorem C2_admission_invariant (s : CrawlState) (url : Str)
    (h : parse_url s url ≠ s) :
    (urlparse url).netloc = (urlparse s.base_url).netloc ∧
    url ∉ s.parsed_links ∧ url ∉ s.to_parse_links ∧
    (parse_url s url).to_parse_links.count url = 1 := by
  rcases parse_url_cases s url with hc | ⟨he, hnf, hnp, hd⟩
  · exact absurd hc h
  · refine ⟨hd, hnp, hnf, ?_⟩
    rw [he]
    simp [List.count_append, List.count_eq_zero.mpr hnf]

/-- C2, witness: the theorem applied at a concrete admission. -/
theorem C2_admission_invariant_witness :
    parse_url ⟨strL "http://a.com", [], [], [], [], strL "out"⟩ (strL "http://a.com/x") ≠
      ⟨strL "http://a.com", [], [], [], [], strL "out"⟩ ∧
    ((urlparse (strL "http://a.com/x")).netloc =
        (urlparse (strL "http://a.com")).netloc ∧
      strL "http://a.com/x" ∉ ([] : List Str) ∧
      strL "http://a.com/x" ∉ ([] : List Str) ∧
      (parse_url ⟨strL "http://a.com", [], [], [], [], strL "out"⟩
          (strL "http://a.com/x")).to_parse_links.count (strL "http://a.com/x") = 1) :=
  ⟨by decide,
    C2_admission_invariant ⟨strL "http://a.com", [], [], [], [], strL "out"⟩
      (strL "http://a.com/x") (by decide)⟩

/-! ### Claim C10 -/

/-- C10: construction succeeds exactly on non-empty seed lists — for a
non-empty list the base is derived once from the first seed and the state
is well-formed, the out-of-bounds access being unreachable; for the empty
list construction fails (`initial_links[0]` raises) before any crawl state
exists. -/
theorem C10_constructor (initial_links : List Str) (f : Str) :
    (initial_links = [] → initState initial_links f = none) ∧
    ∀ l0 rest, initial_links = l0 :: rest →
      initState initial_links f =
        some ⟨extract_base_url l0, initial_links, [], [], [], f⟩ := by
  constructor
  · rintro rfl; rfl
  · rintro l0 rest rfl; rfl

/-- C10, witness: the theorem applied at an empty and at a singleton seed
list. -/
theorem C10_constructor_witness :
    initState [] (strL "out") = none ∧
    initState [strL "http://a.com"] (strL "out") =
      some ⟨extract_base_url (strL "http://a.com"), [strL "http://a.com"],
        [], [], [], strL "out"⟩ :=
  ⟨(C10_constructor [] (strL "out")).1 rfl,
    (C10_constructor [strL "http://a.com"] (strL "out")).2
      (strL "http://a.com") [] rfl⟩

/-! ### Step lemmas for the crawl driver -/

theorem crawlStep_failure (o : Oracles) (s : CrawlState) (current : Str)
    (rest : List Str) (h : s.to_parse_links = current :: rest)
    (hf : fetch_page_content o current = []) :
    crawlStep o s = some { s with to_parse_links := rest, current_link := current } := by
  obtain ⟨b, tp, p, w, c, f⟩ := s
  simp only at h
  subst h
  simp [crawlStep, hf]

theorem crawlStep_success (o : Oracles) (s : CrawlState) (current : Str)
    (rest : List Str) (h : s.to_parse_links = current :: rest)
    (hc : fetch_page_content o current ≠ []) :
    crawlStep o s =
      some { (find_links_and_add_to_parse o
          { s with
              to_parse_links := rest
              current_link := current
              word_frequency :=
                collect_words_from_text (fetch_page_content o current) s.word_frequency }
          (fetch_page_content o current)) with
        parsed_links :=
          (find_links_and_add_to_parse o
            { s with
                to_parse_links := rest
                current_link := current
                word_frequency :=
                  collect_words_from_text (fetch_page_content o current) s.word_frequency }
            (fetch_page_content o current)).parsed_links ++ [current] } := by
  obtain ⟨b, tp, p, w, c, f⟩ := s
  simp only at h
  subst h
  simp [crawlStep, hc]

/-! ### Claim C8 -/

/-- C8: the Frontier is strict FIFO — every driver step dequeues the head
of the Frontier (the oldest enqueued URL, since the classifier only ever
appends at the tail, as the final conjunct states), and the remaining queue
keeps its order ahead of any newly admitted URLs. -/
theorem C8_fifo_dequeue (o : Oracles) (s : CrawlState) (current : Str)
    (rest : List Str) (h : s.to_parse_links = current :: rest) :
    (∃ s', crawlStep o s = some s' ∧ s'.current_link = current ∧
      ∃ newly, s'.to_parse_links = rest ++ newly) ∧
    ∀ (t : CrawlState) (u : Str),
      (parse_url t u).to_parse_links = t.to_parse_links ∨
        (parse_url t u).to_parse_links = t.to_parse_links ++ [u] := by
  constructor
  · by_cases hc : fetch_page_content o current = []
    · refine ⟨_, crawlStep_failure o s current rest h hc, rfl, [], ?_⟩
      simp
    · obtain ⟨L, hL⟩ := linkFold_shape o (o.hrefs (fetch_page_content o current))
        { s with
            to_parse_links := rest
            current_link := current
            word_frequency :=
              collect_words_from_text (fetch_page_content o current) s.word_frequency }
      refine ⟨_, crawlStep_success o s current rest h hc, ?_, L, ?_⟩
      · rw [find_links_eq_linkFold, hL]
      · rw [find_links_eq_linkFold, hL]
  · intro t u
    rcases parse_url_cases t u with hc | ⟨he, _⟩
    · exact Or.inl (by rw [hc])
    · exact Or.inr (by rw [he])

/-- C8, witness: the theorem applied at a concrete two-element Frontier. -/
theorem C8_fifo_dequeue_witness :
    (⟨strL "http://a.com", [strL "http://a.com", strL "http://a.com/x"], [], [], [],
      strL "o"⟩ : CrawlState).to_parse_links =
        strL "http://a.com" :: [strL "http://a.com/x"] ∧
    ((∃ s', crawlStep demoWorld
        ⟨strL "http://a.com", [strL "http://a.com", strL "http://a.com/x"], [], [], [],
          strL "o"⟩ = some s' ∧ s'.current_link = strL "http://a.com" ∧
        ∃ newly, s'.to_parse_links = [strL "http://a.com/x"] ++ newly) ∧
      ∀ (t : CrawlState) (u : Str),
        (parse_url t u).to_parse_links = t.to_parse_links ∨
          (parse_url t u).to_parse_links = t.to_parse_links ++ [u]) :=
  ⟨rfl,
    C8_fifo_dequeue demoWorld
      ⟨strL "http://a.com", [strL "http://a.com", strL "http://a.com/x"], [], [], [],
        strL "o"⟩ (strL "http://a.com") [strL "http://a.com/x"] rfl⟩

/-! ### Claim C4 -/

/-- C4, counterexample: a fetch that succeeds (no exception — the oracle
answers `some body`) with an empty body is treated by the driver like a
failure: the URL is dropped, nothing is processed and, against the claim,
the URL is NOT appended to the Visited Set. -/
theorem C4_empty_success_counterexample :
    emptyBodyWorld.fetch (strL "http://a.com") = some [] ∧
    crawlStep emptyBodyWorld
        ⟨strL "http://a.com", [strL "http://a.com"], [], [], [], strL "o"⟩ =
      some ⟨strL "http://a.com", [], [], [], strL "http://a.com", strL "o"⟩ := by
  exact ⟨rfl, by decide⟩

/-- C4, amended: for every URL popped from the Frontier whose fetch
succeeds WITH NON-EMPTY CONTENT, the driver runs the Word Extractor on the
body, then the Link Discoverer on the resulting state, and then appends the
URL to the Visited Set; a successful fetch with empty body is treated as a
failure (no processing, no visited-marking). -/
theorem C4_success_pipeline (o : Oracles) (s : CrawlState) (current : Str)
    (rest : List Str) (h : s.to_parse_links = current :: rest)
    (hc : fetch_page_content o current ≠ []) :
    ∃ s', crawlStep o s = some s' ∧
      s' = { (find_links_and_add_to_parse o
          { s with
              to_parse_links := rest
              current_link := current
              word_frequency :=
                collect_words_from_text (fetch_page_content o current) s.word_frequency }
          (fetch_page_content o current)) with
        parsed_links := s.parsed_links ++ [current] } ∧
      s'.word_frequency =
        collect_words_from_text (fetch_page_content o current) s.word_frequency ∧
      s'.parsed_links = s.parsed_links ++ [current] := by
  obtain ⟨L, hL⟩ := linkFold_shape o (o.hrefs (fetch_page_content o current))
    { s with
        to_parse_links := rest
        current_link := current
        word_frequency :=
          collect_words_from_text (fetch_page_content o current) s.word_frequency }
  refine ⟨_, crawlStep_success o s current rest h hc, ?_, ?_, ?_⟩
  · rw [find_links_eq_linkFold, hL]
  · rw [find_links_eq_linkFold, hL]
  · rw [find_links_eq_linkFold, hL]

/-- C4, witness: the theorem applied at a concrete successful fetch. -/
theorem C4_success_pipeline_witness :
    (⟨strL "http://a.com", [strL "http://a.com"], [], [], [], strL "o"⟩ :
        CrawlState).to_parse_links = strL "http://a.com" :: [] ∧
    fetch_page_content demoWorld (strL "http://a.com") ≠ [] ∧
    (∃ s', crawlStep demoWorld
        ⟨strL "http://a.com", [strL "http://a.com"], [], [], [], strL "o"⟩ = some s' ∧
      s' = { (find_links_and_add_to_parse demoWorld
          { (⟨strL "http://a.com", [strL "http://a.com"], [], [], [], strL "o"⟩ :
              CrawlState) with
              to_parse_links := [], current_link := strL "http://a.com",
              word_frequency :=
                collect_words_from_text
                  (fetch_page_content demoWorld (strL "http://a.com")) [] }
          (fetch_page_content demoWorld (strL "http://a.com"))) with
        parsed_links := [] ++ [strL "http://a.com"] } ∧
      s'.word_frequency =
        collect_words_from_text (fetch_page_content demoWorld (strL "http://a.com")) [] ∧
      s'.parsed_links = [] ++ [strL "http://a.com"]) :=
  ⟨rfl, by decide,
    C4_success_pipeline demoWorld
      ⟨strL "http://a.com", [strL "http://a.com"], [], [], [], strL "o"⟩
      (strL "http://a.com") [] rfl (by decide)⟩

/-! ### Claim C5 -/

/-- C5: a failed fetch is recovered locally — the URL is dropped from the
cycle (the Frontier just loses its head; Visited Set, Frequency Table and
everything else are untouched, so it contributes zero words and zero
links, is not retried and not marked visited), the crawl continues with the
next state, and the classifier will re-admit the same URL later whenever
its admission conditions hold (rediscovery re-enqueues it). -/
theorem C5_failure_recovery (o : Oracles) (s : CrawlState) (current : Str)
    (rest : List Str) (h : s.to_parse_links = current :: rest)
    (hf : o.fetch current = none) :
    crawlStep o s = some { s with to_parse_links := rest, current_link := current } ∧
    ∀ s' : CrawlState,
      ((urlparse current).path = [] ∨ '.' ∉ (urlparse current).path) →
      current ∉ s'.to_parse_links → current ∉ s'.parsed_links →
      (urlparse current).netloc = (urlparse s'.base_url).netloc →
      (parse_url s' current).to_parse_links = s'.to_parse_links ++ [current] := by
  constructor
  · exact crawlStep_failure o s current rest h (by simp [fetch_page_content, hf])
  · intro s' h1 h2 h3 h4
    rw [parse_url_eq, if_pos ⟨h1, h2, h3, h4⟩]

/-- C5, witness: the theorem applied at a concrete failing fetch and a
concrete later rediscovery state. -/
theorem C5_failure_recovery_witness :
    (⟨strL "http://a.com", [strL "http://a.com/x"], [], [], [], strL "o"⟩ :
        CrawlState).to_parse_links = strL "http://a.com/x" :: [] ∧
    downWorld.fetch (strL "http://a.com/x") = none ∧
    (crawlStep downWorld
        ⟨strL "http://a.com", [strL "http://a.com/x"], [], [], [], strL "o"⟩ =
      some ⟨strL "http://a.com", [], [], [], strL "http://a.com/x", strL "o"⟩ ∧
    ∀ s' : CrawlState,
      ((urlparse (strL "http://a.com/x")).path = [] ∨
        '.' ∉ (urlparse (strL "http://a.com/x")).path) →
      strL "http://a.com/x" ∉ s'.to_parse_links →
      strL "http://a.com/x" ∉ s'.parsed_links →
      (urlparse (strL "http://a.com/x")).netloc = (urlparse s'.base_url).netloc →
      (parse_url s' (strL "http://a.com/x")).to_parse_links =
        s'.to_parse_links ++ [strL "http://a.com/x"]) :=
  ⟨rfl, rfl,
    C5_failure_recovery downWorld
      ⟨strL "http://a.com", [strL "http://a.com/x"], [], [], [], strL "o"⟩
      (strL "http://a.com/x") [] rfl rfl⟩

/-! ### Claim C6: the Word Extractor -/

theorem char_toNat_ofNat_of_lt (m : Nat) (hm : m < 55296) :
    (Char.ofNat m).toNat = m := by
  rw [Char.ofNat, dif_pos (Or.inl hm : Nat.isValidChar m)]
  rfl

theorem pyLowerChar_lower (c : Char)
    (h : (isAsciiUpper c || isAsciiLower c) = true) :
    isAsciiLower (pyLowerChar c) = true := by
  rw [pyLowerChar]
  by_cases hu : isAsciiUpper c = true
  · rw [if_pos hu]
    simp only [isAsciiUpper, Bool.and_eq_true, decide_eq_true_eq] at hu
    have hv : c.toNat + 32 < 55296 := by omega
    simp only [isAsciiLower, char_toNat_ofNat_of_lt _ hv, Bool.and_eq_true,
      decide_eq_true_eq]
    omega
  · rw [if_neg hu]
    rcases Bool.or_eq_true_iff.mp h with h1 | h1
    · exact absurd h1 hu
    · exact h1

theorem pyLower_goodKey (w : Str) (h : pyIsAlphaAscii w = true) :
    goodKey (pyLower w) := by
  simp only [pyIsAlphaAscii, Bool.and_eq_true, decide_eq_true_eq,
    List.all_eq_true] at h
  obtain ⟨⟨hne, hall⟩, _⟩ := h
  constructor
  · simp [pyLower, hne]
  · intro c hc
    simp only [pyLower, List.mem_map] at hc
    obtain ⟨d, hd, rfl⟩ := hc
    exact pyLowerChar_lower d (hall d hd)

theorem lookupCount_bump (f : List (Str × Nat)) (w v : Str) :
    lookupCount (bump w f) v =
      if w = v then lookupCount f v + 1 else lookupCount f v := by
  induction f with
  | nil =>
    by_cases h : w = v <;> simp [bump, lookupCount, h]
  | cons p rest ih =>
    obtain ⟨k, n⟩ := p
    rw [bump]
    by_cases hk : k = w
    · rw [if_pos hk]
      subst hk
      by_cases hv : k = v
      · simp [lookupCount, hv]
      · simp [lookupCount, hv]
    · rw [if_neg hk]
      by_cases hv : k = v
      · have hwv : w ≠ v := fun h => hk (hv.trans h.symm)
        simp [lookupCount, hv, hwv]
      · simp [lookupCount, hv, ih]

theorem bump_keys (f : List (Str × Nat)) (w : Str) (P : Str → Prop)
    (hf : ∀ p ∈ f, P p.1) (hw : P w) : ∀ p ∈ bump w f, P p.1 := by
  induction f with
  | nil =>
    intro p hp
    simp only [bump, List.mem_singleton] at hp
    subst hp; exact hw
  | cons q rest ih =>
    obtain ⟨k, n⟩ := q
    intro p hp
    by_cases hk : k = w
    · simp only [bump, if_pos hk, List.mem_cons] at hp
      rcases hp with rfl | hp
      · exact hf (k, n) (List.mem_cons_self _ _)
      · exact hf p (List.mem_cons_of_mem _ hp)
    · simp only [bump, if_neg hk, List.mem_cons] at hp
      rcases hp with rfl | hp
      · exact hf (k, n) (List.mem_cons_self _ _)
      · exact ih (fun q hq => hf q (List.mem_cons_of_mem _ hq)) p hp

theorem collect_fold_lookup (ts : List Str) :
    ∀ (f : List (Str × Nat)) (v : Str),
      lookupCount
        (ts.foldl (fun f w => if pyIsAlphaAscii w then bump (pyLower w) f else f) f)
        v =
      lookupCount f v +
        ts.countP (fun w => pyIsAlphaAscii w && decide (pyLower w = v)) := by
  induction ts with
  | nil => intro f v; simp
  | cons w ts ih =>
    intro f v
    rw [List.foldl_cons, ih, List.countP_cons]
    by_cases hw : pyIsAlphaAscii w = true
    · rw [if_pos hw, lookupCount_bump]
      by_cases hv : pyLower w = v
      · simp [hw, hv]; omega
      · simp [hw, hv]
    · simp only [Bool.not_eq_true] at hw
      simp [hw]

theorem collect_fold_keys (ts : List Str) :
    ∀ f : List (Str × Nat), (∀ p ∈ f, goodKey p.1) →
      ∀ p ∈ ts.foldl (fun f w => if pyIsAlphaAscii w then bump (pyLower w) f else f) f,
        goodKey p.1 := by
  induction ts with
  | nil => intro f hf; exact hf
  | cons w ts ih =>
    intro f hf
    rw [List.foldl_cons]
    by_cases hw : pyIsAlphaAscii w = true
    · rw [if_pos hw]
      exact ih _ (bump_keys f (pyLower w) goodKey hf (pyLower_goodKey w hw))
    · simp only [Bool.not_eq_true] at hw
      rw [hw]
      simp only [Bool.false_eq_true, if_false]
      exact ih f hf

/-- C6: the Word Extractor splits the text on whitespace, and for every
word `v` the count of `v` grows by exactly the number of whitespace tokens
that pass the all-ASCII-letters test and lower-case to `v` (each accepted
occurrence increments the count of its lower-cased form by exactly 1,
rejected tokens contribute nothing); moreover every key of the updated
table is a non-empty lower-cased, alphabetic-only, ASCII-only token
whenever the incoming table's keys are. -/
theorem C6_word_extractor (text : Str) (freq : List (Str × Nat)) :
    (∀ v, lookupCount (collect_words_from_text text freq) v =
      lookupCount freq v +
        (pySplit text).countP (fun w => pyIsAlphaAscii w && decide (pyLower w = v))) ∧
    ((∀ p ∈ freq, goodKey p.1) →
      ∀ p ∈ collect_words_from_text text freq, goodKey p.1) :=
  ⟨fun v => collect_fold_lookup (pySplit text) freq v,
    fun hf => collect_fold_keys (pySplit text) freq hf⟩

/-- C6, witness: the theorem applied to a concrete text against the empty
table: `the` is counted twice (from `The` and `the`), and the key `the` of
the resulting table is a well-formed lower-case ASCII key. -/
theorem C6_word_extractor_witness :
    lookupCount (collect_words_from_text (strL "The Cat sat, the cat7 mat") [])
        (strL "the") =
      lookupCount [] (strL "the") +
        (pySplit (strL "The Cat sat, the cat7 mat")).countP
          (fun w => pyIsAlphaAscii w && decide (pyLower w = strL "the")) ∧
    lookupCount (collect_words_from_text (strL "The Cat sat, the cat7 mat") [])
        (strL "the") = 2 ∧
    goodKey (strL "the") :=
  ⟨(C6_word_extractor (strL "The Cat sat, the cat7 mat") []).1 (strL "the"),
    by decide,
    (C6_word_extractor (strL "The Cat sat, the cat7 mat") []).2
      (by intro p hp; cases hp) (strL "the", 2) (by decide)⟩

/-! ### Claim C7: finalization sort -/

theorem filter_orderedInsert_freqGE (a : Str × Nat) (c : Nat) :
    ∀ l : List (Str × Nat),
      (List.orderedInsert freqGE a l).filter (fun p => decide (p.2 = c)) =
        if a.2 = c then a :: l.filter (fun p => decide (p.2 = c))
        else l.filter (fun p => decide (p.2 = c)) := by
  intro l
  induction l with
  | nil =>
    by_cases h : a.2 = c <;> simp [List.orderedInsert, List.filter, h]
  | cons b l ih =>
    rw [List.orderedInsert]
    by_cases hr : freqGE a b
    · rw [if_pos hr]
      by_cases h : a.2 = c
      · simp [List.filter_cons, h]
      · simp [List.filter_cons, h]
    · rw [if_neg hr]
      have hb : a.2 < b.2 := Nat.lt_of_not_le hr
      by_cases h : a.2 = c
      · have hbc : ¬ (b.2 = c) := by omega
        simp [List.filter_cons, hbc, ih, h]
      · simp [List.filter_cons, ih, h]

theorem sort_word_frequency_filter (freq : List (Str × Nat)) (c : Nat) :
    (sort_word_frequency freq).filter (fun p => decide (p.2 = c)) =
      freq.filter (fun p => decide (p.2 = c)) := by
  rw [sort_word_frequency]
  induction freq with
  | nil => rfl
  | cons a l ih =>
    rw [List.insertionSort, filter_orderedInsert_freqGE, List.filter_cons]
    by_cases h : a.2 = c
    · simp [h, ih]
    · simp [h, ih]

/-- C7: finalization permutes the table's entries, orders them by count
descending (every entry's count is at least each later entry's), and is
stable on ties: for every count value the subsequence of entries carrying
that count is exactly the same, in the same order, before and after the
sort. -/
theorem C7_sort_descending_stable (freq : List (Str × Nat)) :
    List.Perm (sort_word_frequency freq) freq ∧
    List.Sorted freqGE (sort_word_frequency freq) ∧
    ∀ c, (sort_word_frequency freq).filter (fun p => decide (p.2 = c)) =
      freq.filter (fun p => decide (p.2 = c)) :=
  ⟨List.perm_insertionSort freqGE freq,
    List.sorted_insertionSort freqGE freq,
    fun c => sort_word_frequency_filter freq c⟩

/-! ### Claim C9: persistence round-trip -/

theorem natDigitChar_facts (d : Nat) (hd : d < 10) :
    isDigitChar (natDigitChar d) = true ∧ charDigitVal (natDigitChar d) = d ∧
      natDigitChar d ≠ ':' ∧ natDigitChar d ≠ '\n' := by
  interval_cases d <;> exact ⟨by decide, by decide, by decide, by decide⟩

theorem natToChars_facts (n : Nat) :
    natToChars n ≠ [] ∧ ∀ c ∈ natToChars n,
      isDigitChar c = true ∧ c ≠ ':' ∧ c ≠ '\n' := by
  by_cases h : n = 0
  · subst h
    refine ⟨by decide, ?_⟩
    intro c hc
    have h0 : natToChars 0 = ['0'] := by decide
    rw [h0, List.mem_singleton] at hc
    subst hc
    exact ⟨by decide, by decide, by decide⟩
  · rw [natToChars, if_neg h]
    constructor
    · simp [Nat.digits_ne_nil_iff_ne_zero.mpr h]
    · intro c hc
      simp only [List.mem_reverse, List.mem_map] at hc
      obtain ⟨d, hd, rfl⟩ := hc
      have hlt : d < 10 := Nat.digits_lt_base (by norm_num) hd
      obtain ⟨h1, _, h3, h4⟩ := natDigitChar_facts d hlt
      exact ⟨h1, h3, h4⟩

theorem readNat_natToChars (n : Nat) : readNat (natToChars n) = some n := by
  by_cases h : n = 0
  · subst h; decide
  · obtain ⟨hne, hall⟩ := natToChars_facts n
    rw [readNat, if_pos ⟨hne, List.all_eq_true.mpr (fun c hc => (hall c hc).1)⟩]
    congr 1
    rw [natToChars, if_neg h, List.map_reverse, List.reverse_reverse,
      List.map_map]
    have hmap : (Nat.digits 10 n).map (charDigitVal ∘ natDigitChar) =
        Nat.digits 10 n := by
      rw [List.map_congr_left, List.map_id]
      intro d hd
      exact (natDigitChar_facts d (Nat.digits_lt_base (by norm_num) hd)).2.1
    rw [hmap, Nat.ofDigits_digits]

theorem splitAtFirst_colon_append (ds : Str) :
    ∀ w : Str, ':' ∉ w → splitAtFirst ':' (w ++ ':' :: ds) = some (w, ds) := by
  intro w
  induction w with
  | nil => intro _; rfl
  | cons c w ih =>
    intro hc
    have hcne : ¬ (c = ':') := fun he => hc (he ▸ List.mem_cons_self c w)
    rw [List.cons_append, splitAtFirst, if_neg hcne,
      ih (fun hm => hc (List.mem_cons_of_mem c hm))]
    rfl

theorem readLine_line (w : Str) (n : Nat) (hw : ':' ∉ w) :
    readLine (w ++ ':' :: natToChars n) = some (w, n) := by
  rw [readLine, splitAtFirst_colon_append (natToChars n) w hw]
  have hds : ':' ∉ natToChars n := by
    intro hm
    exact absurd rfl ((natToChars_facts n).2 ':' hm).2.1
  show (if ':' ∈ natToChars n then none
    else (readNat (natToChars n)).map fun m => (w, m)) = some (w, n)
  rw [if_neg hds, readNat_natToChars n]
  rfl

theorem splitSep_newline_append (rest : Str) :
    ∀ xs : Str, '\n' ∉ xs →
      splitSep '\n' (xs ++ '\n' :: rest) = xs :: splitSep '\n' rest := by
  intro xs
  induction xs with
  | nil => intro _; rfl
  | cons c xs ih =>
    intro hc
    have hcne : ¬ (c = '\n') := fun he => hc (he ▸ List.mem_cons_self c xs)
    rw [List.cons_append, splitSep, ih (fun hm => hc (List.mem_cons_of_mem c hm))]
    simp [hcne]

/-- the character content of one record, without its final newline. -/
def lineBody (p : Str × Nat) : Str := p.1 ++ ':' :: natToChars p.2

theorem splitSep_flatten_saveLines :
    ∀ l : List (Str × Nat), (∀ p ∈ l, '\n' ∉ p.1) →
      splitSep '\n' ((l.map saveLine).flatten) = (l.map lineBody) ++ [[]] := by
  intro l
  induction l with
  | nil => intro _; rfl
  | cons p l ih =>
    intro h
    have hbody : '\n' ∉ lineBody p := by
      intro hm
      rw [lineBody] at hm
      rcases List.mem_append.mp hm with hm | hm
      · exact h p (List.mem_cons_self p l) hm
      · rcases List.mem_cons.mp hm with he | hm
        · exact absurd he (by decide)
        · exact absurd rfl ((natToChars_facts p.2).2 '\n' hm).2.2
    have harr : (((p :: l).map saveLine).flatten : Str) =
        lineBody p ++ '\n' :: ((l.map saveLine).flatten) := by
      simp [saveLine, lineBody, List.append_assoc]
    rw [harr, splitSep_newline_append _ _ hbody,
      ih (fun q hq => h q (List.mem_cons_of_mem p hq))]
    rfl

theorem readAllLines_lineBodies :
    ∀ l : List (Str × Nat), (∀ p ∈ l, ':' ∉ p.1) →
      readAllLines (l.map lineBody) = some l := by
  intro l
  induction l with
  | nil => intro _; rfl
  | cons p l ih =>
    intro h
    have : readLine (lineBody p) = some p := by
      rw [lineBody]
      exact readLine_line p.1 p.2 (h p (List.mem_cons_self p l))
    rw [List.map_cons, readAllLines, this,
      ih (fun q hq => h q (List.mem_cons_of_mem p hq))]
    rfl

theorem pyIsAlphaAscii_no_specials (w : Str) (h : pyIsAlphaAscii w = true) :
    ':' ∉ w ∧ '\n' ∉ w := by
  simp only [pyIsAlphaAscii, Bool.and_eq_true, decide_eq_true_eq,
    List.all_eq_true] at h
  obtain ⟨⟨_, hall⟩, _⟩ := h
  exact ⟨fun hm => absurd (hall ':' hm) (by decide),
    fun hm => absurd (hall '\n' hm) (by decide)⟩

/-- C9: for every Frequency Table the core can produce (all keys pass the
`isalpha and isascii` filter), writing the finalized table as
newline-delimited `word:count` records and re-reading the lines — each
split on its first `:` with the right side parsed as a decimal
non-negative integer — reconstructs exactly the finalized association
list, which is a permutation of the original table, i.e. an equivalent
word-to-count mapping. -/
theorem C9_roundtrip (freq : List (Str × Nat))
    (hkeys : ∀ p ∈ freq, pyIsAlphaAscii p.1 = true) :
    readBack (save_to_file freq) = some (sort_word_frequency freq) ∧
    List.Perm (sort_word_frequency freq) freq := by
  have hperm : List.Perm (sort_word_frequency freq) freq :=
    List.perm_insertionSort freqGE freq
  have hkeys' : ∀ p ∈ sort_word_frequency freq, pyIsAlphaAscii p.1 = true :=
    fun p hp => hkeys p (hperm.mem_iff.mp hp)
  refine ⟨?_, hperm⟩
  rw [readBack, save_to_file, toLines]
  rw [splitSep_flatten_saveLines (sort_word_frequency freq)
    (fun p hp => (pyIsAlphaAscii_no_specials p.1 (hkeys' p hp)).2)]
  rw [List.getLast?_concat]
  simp only [if_pos rfl, List.dropLast_concat]
  exact readAllLines_lineBodies (sort_word_frequency freq)
    (fun p hp => (pyIsAlphaAscii_no_specials p.1 (hkeys' p hp)).1)

/-- C9, witness: the theorem applied to a concrete two-entry table. -/
theorem C9_roundtrip_witness :
    (∀ p ∈ [(strL "cat", 1), (strL "the", 2)], pyIsAlphaAscii p.1 = true) ∧
    (readBack (save_to_file [(strL "cat", 1), (strL "the", 2)]) =
      some (sort_word_frequency [(strL "cat", 1), (strL "the", 2)]) ∧
    List.Perm (sort_word_frequency [(strL "cat", 1), (strL "the", 2)])
      [(strL "cat", 1), (strL "the", 2)]) :=
  ⟨by decide, C9_roundtrip [(strL "cat", 1), (strL "the", 2)] (by decide)⟩

/-! ### Claim C3: bounded revisits -/

theorem count_cons_indicator (b : Str) (l : List Str) (u : Str) :
    List.count u (b :: l) = List.count u l + (if u = b then 1 else 0) := by
  rw [List.count_cons]
  simp only [beq_iff_eq]
  by_cases h : u = b
  · subst h; simp
  · rw [if_neg (fun hh => h hh.symm), if_neg h]

theorem count_append_singleton (l : List Str) (v u : Str) :
    List.count u (l ++ [v]) = List.count u l + (if u = v then 1 else 0) := by
  rw [List.count_append, count_cons_indicator v [] u]
  simp

theorem parse_url_count_le (s : CrawlState) (v u : Str)
    (h : s.to_parse_links.count u ≤ 1) :
    (parse_url s v).to_parse_links.count u ≤ 1 := by
  rcases parse_url_cases s v with hc | ⟨he, hnf, _⟩
  · rw [hc]; exact h
  · rw [he]
    show List.count u (s.to_parse_links ++ [v]) ≤ 1
    rw [count_append_singleton]
    by_cases huv : u = v
    · subst huv
      rw [List.count_eq_zero.mpr hnf]
      simp
    · rw [if_neg huv]
      omega

theorem parse_url_count_visited (s : CrawlState) (v u : Str)
    (hu : u ∈ s.parsed_links) :
    (parse_url s v).to_parse_links.count u = s.to_parse_links.count u := by
  rcases parse_url_cases s v with hc | ⟨he, _, hnp, _⟩
  · rw [hc]
  · rw [he]
    show List.count u (s.to_parse_links ++ [v]) = _
    rw [count_append_singleton]
    by_cases huv : u = v
    · subst huv; exact absurd hu hnp
    · rw [if_neg huv]
      simp

theorem linkFold_count_le (o : Oracles) (hs : List Str) :
    ∀ (st : CrawlState) (u : Str), st.to_parse_links.count u ≤ 1 →
      (linkFold o hs st).to_parse_links.count u ≤ 1 := by
  induction hs with
  | nil => intro st u h; exact h
  | cons href t ih =>
    intro st u h
    exact ih (parse_url st (o.urljoin st.current_link href)) u
      (parse_url_count_le st (o.urljoin st.current_link href) u h)

theorem linkFold_count_visited (o : Oracles) (hs : List Str) :
    ∀ (st : CrawlState) (u : Str), u ∈ st.parsed_links →
      (linkFold o hs st).to_parse_links.count u = st.to_parse_links.count u := by
  induction hs with
  | nil => intro st u _; rfl
  | cons href t ih =>
    intro st u hu
    rw [show linkFold o (href :: t) st =
        linkFold o t (parse_url st (o.urljoin st.current_link href)) from rfl,
      ih (parse_url st (o.urljoin st.current_link href)) u
        (by rw [parse_url_parsed_links]; exact hu),
      parse_url_count_visited st (o.urljoin st.current_link href) u hu]

theorem mark_after_fold_invariant (o : Oracles) (hs : List Str)
    (t : CrawlState) (current : Str)
    (h1 : ∀ u : Str, t.to_parse_links.count u + (if u = current then 1 else 0) ≤ 1)
    (h2 : ∀ u : Str, t.parsed_links.count u ≤ 2)
    (h3 : ∀ u : Str, 1 ≤ t.parsed_links.count u →
      t.parsed_links.count u + t.to_parse_links.count u +
        (if u = current then 1 else 0) ≤ 2) :
    crawlInvariant
      { (linkFold o hs t) with
        parsed_links := (linkFold o hs t).parsed_links ++ [current] } := by
  obtain ⟨L, hL⟩ := linkFold_shape o hs t
  have hparsed : (linkFold o hs t).parsed_links = t.parsed_links := by rw [hL]
  intro u
  have h1u := h1 u
  have h2u := h2 u
  have h3u := h3 u
  refine ⟨?_, ?_, ?_⟩
  · show (linkFold o hs t).to_parse_links.count u ≤ 1
    exact linkFold_count_le o hs t u (by omega)
  · show List.count u ((linkFold o hs t).parsed_links ++ [current]) ≤ 2
    rw [count_append_singleton, hparsed]
    by_cases huc : u = current
    · rw [if_pos huc]
      rw [if_pos huc] at h3u
      by_cases hp : 1 ≤ t.parsed_links.count u
      · have := h3u hp; omega
      · omega
    · rw [if_neg huc]; omega
  · intro hp
    show List.count u ((linkFold o hs t).parsed_links ++ [current]) +
      (linkFold o hs t).to_parse_links.count u ≤ 2
    have hp' : 1 ≤ List.count u ((linkFold o hs t).parsed_links ++ [current]) := hp
    rw [count_append_singleton, hparsed] at hp' ⊢
    by_cases huc : u = current
    · subst huc
      rw [if_pos rfl] at h1u h3u ⊢
      have hrest : t.to_parse_links.count u = 0 := by omega
      by_cases hmem : u ∈ t.parsed_links
      · have hfv : (linkFold o hs t).to_parse_links.count u =
            t.to_parse_links.count u := linkFold_count_visited o hs t u hmem
        have hpm : 1 ≤ t.parsed_links.count u := List.count_pos_iff.mpr hmem
        have := h3u hpm
        rw [hfv]
        omega
      · have hp0 : t.parsed_links.count u = 0 := List.count_eq_zero.mpr hmem
        have hfle : (linkFold o hs t).to_parse_links.count u ≤ 1 :=
          linkFold_count_le o hs t u (by omega)
        omega
    · rw [if_neg huc] at h1u h3u hp' ⊢
      have hmem : u ∈ t.parsed_links := List.count_pos_iff.mp (by omega)
      have hfv : (linkFold o hs t).to_parse_links.count u =
          t.to_parse_links.count u := linkFold_count_visited o hs t u hmem
      have := h3u (by omega)
      rw [hfv]
      omega

theorem crawlStep_invariant (o : Oracles) (s s' : CrawlState)
    (hI : crawlInvariant s) (h : crawlStep o s = some s') :
    crawlInvariant s' := by
  cases hsp : s.to_parse_links with
  | nil =>
    rw [crawlStep, hsp] at h
    cases h
  | cons current rest =>
    by_cases hc : fetch_page_content o current = []
    · rw [crawlStep_failure o s current rest hsp hc] at h
      cases h
      intro u
      obtain ⟨h1, h2, h3⟩ := hI u
      rw [hsp, count_cons_indicator] at h1 h3
      refine ⟨?_, h2, ?_⟩
      · show List.count u rest ≤ 1
        omega
      · intro hp
        have hp' : 1 ≤ List.count u s.parsed_links := hp
        show List.count u s.parsed_links + List.count u rest ≤ 2
        have := h3 hp'
        omega
    · rw [crawlStep_success o s current rest hsp hc] at h
      cases h
      simp only [find_links_eq_linkFold]
      refine mark_after_fold_invariant o _ _ current ?_ ?_ ?_
      · intro u
        have h1 := (hI u).1
        rw [hsp, count_cons_indicator] at h1
        show List.count u rest + (if u = current then 1 else 0) ≤ 1
        omega
      · intro u
        exact (hI u).2.1
      · intro u hp
        have hp' : 1 ≤ List.count u s.parsed_links := hp
        have h3 := (hI u).2.2
        rw [hsp, count_cons_indicator] at h3
        show List.count u s.parsed_links + List.count u rest +
          (if u = current then 1 else 0) ≤ 2
        have := h3 hp'
        omega

theorem parse_all_links_invariant (o : Oracles) :
    ∀ (fuel : Nat) (s : CrawlState), crawlInvariant s →
      crawlInvariant (parse_all_links o fuel s) := by
  intro fuel
  induction fuel with
  | zero => intro s h; exact h
  | succ n ih =>
    intro s h
    rw [parse_all_links]
    cases hstep : crawlStep o s with
    | none => exact h
    | some s' => exact ih s' (crawlStep_invariant o s s' h hstep)

theorem count_le_one_of_nodup :
    ∀ l : List Str, l.Nodup → ∀ u : Str, List.count u l ≤ 1 := by
  intro l
  induction l with
  | nil => intro _ u; simp
  | cons a l ih =>
    intro hn u
    have hrec := ih (List.nodup_cons.mp hn).2 u
    rw [count_cons_indicator]
    by_cases h : u = a
    · subst h
      rw [List.count_eq_zero.mpr (List.nodup_cons.mp hn).1]
      simp
    · rw [if_neg h]
      omega

theorem initState_invariant (seeds : List Str) (f : Str) (s0 : CrawlState)
    (hn : seeds.Nodup) (h : initState seeds f = some s0) :
    crawlInvariant s0 := by
  cases seeds with
  | nil => cases h
  | cons l0 t =>
    rw [initState] at h
    cases h
    intro u
    exact ⟨count_le_one_of_nodup (l0 :: t) hn u, by simp, by simp⟩

/-- C3, counterexample: a page that links to itself is popped and
successfully processed twice — during its first processing it is not yet
in the Visited Set (visited-marking happens only after link discovery), so
its self-link is re-admitted to the Frontier; the run leaves the URL twice
in the Visited Set and its words counted twice. -/
theorem C3_selflink_counterexample :
    initState [strL "http://a.com"] (strL "o") =
      some ⟨strL "http://a.com", [strL "http://a.com"], [], [], [], strL "o"⟩ ∧
    (parse_all_links selfLinkWorld 5
        ⟨strL "http://a.com", [strL "http://a.com"], [], [], [], strL "o"⟩).parsed_links =
      [strL "http://a.com", strL "http://a.com"] ∧
    (parse_all_links selfLinkWorld 5
        ⟨strL "http://a.com", [strL "http://a.com"], [], [], [], strL "o"⟩).word_frequency =
      [(strL "selfref", 2)] := by
  refine ⟨by decide, by decide, by decide⟩

/-- C3, amended: the traversal can revisit a node, but at most once more —
in every run of the crawl loop from a duplicate-free seed list, no URL is
popped from the Frontier and successfully processed more than twice (a
second processing arises exactly when a URL is re-admitted during its own
processing, e.g. via a self-link, before visited-marking). -/
theorem C3_at_most_twice (o : Oracles) (seeds : List Str) (f : Str)
    (s0 : CrawlState) (hn : seeds.Nodup) (h0 : initState seeds f = some s0)
    (fuel : Nat) (u : Str) :
    (parse_all_links o fuel s0).parsed_links.count u ≤ 2 :=
  ((parse_all_links_invariant o fuel s0
    (initState_invariant seeds f s0 hn h0)) u).2.1

/-- C3, witness: the amended bound applied to the self-link run itself,
where the bound two is attained. -/
theorem C3_at_most_twice_witness :
    ([strL "http://a.com"] : List Str).Nodup ∧
    initState [strL "http://a.com"] (strL "o") =
      some ⟨strL "http://a.com", [strL "http://a.com"], [], [], [], strL "o"⟩ ∧
    (parse_all_links selfLinkWorld 5
        ⟨strL "http://a.com", [strL "http://a.com"], [], [], [], strL "o"⟩).parsed_links.count
      (strL "http://a.com") ≤ 2 :=
  ⟨by decide, by decide,
    C3_at_most_twice selfLinkWorld [strL "http://a.com"] (strL "o")
      ⟨strL "http://a.com", [strL "http://a.com"], [], [], [], strL "o"⟩
      (by decide) (by decide) 5 (strL "http://a.com")⟩

end EWFP
